import Mathlib

/-!
Verification of the quiz-to-certificate server (`solquiz`).

The source under scrutiny is the Express server variant embedded in
`src/README.md` (the variant that contains the full certificate pipeline:
`sanitizeUserName`, `applyTemplatePlaceholders`, `prepareSvgForSharp`,
`generateCertificate` and the `/api/submit-quiz` handler); `src/server.js`
is an earlier, smaller variant of the same handler.

Strings are modelled as `List Char`.  JavaScript regular-expression
operations used by the source (`String.prototype.replace` with literal or
near-literal patterns, `String.prototype.match`) are embedded as explicit
left-to-right scanning functions on `List Char`, including JavaScript's
replacement-string semantics (the `$$`/`$&` escapes and friends).
-/

namespace Solquiz

/-- The character set matched by JavaScript's `\s` (used by the sanitizer's
`replace(/\s+/g, ' ')` and by `String.prototype.trim`). -/
def isJsSpace (c : Char) : Bool :=
  c = ' ' || c = '\t' || c = '\n' || c = '\r' ||
  c = Char.ofNat 0x0b || c = Char.ofNat 0x0c ||
  c = Char.ofNat 0xa0 || c = Char.ofNat 0x1680 ||
  (Char.ofNat 0x2000 ≤ c && c ≤ Char.ofNat 0x200a) ||
  c = Char.ofNat 0x2028 || c = Char.ofNat 0x2029 ||
  c = Char.ofNat 0x202f || c = Char.ofNat 0x205f ||
  c = Char.ofNat 0x3000 || c = Char.ofNat 0xfeff

/-- The character class kept by `sanitizeUserName`'s
`replace(/[^\p{L}\p{N} .,'-]/gu, '')`: Unicode letters (`\p{L}`), Unicode
numbers (`\p{N}`), the space character, and `. , ' -`.  The Unicode
properties `\p{L}` and `\p{N}` are supplied by the JavaScript runtime, not
by this repository, so they are taken as parameters `isL` and `isN`. -/
def allowedChar (isL isN : Char → Bool) (c : Char) : Bool :=
  isL c || isN c || c = ' ' || c = '.' || c = ',' || c = '\'' || c = '-'

/-- One pass of `replace(/\\s+/g, ' ')`: every maximal run of `\\s` characters
becomes a single `' '` (scanning two characters at a time keeps the
recursion structural, so the definition evaluates in the kernel). -/
def collapseWs : List Char → List Char
  | [] => []
  | [c] => [if isJsSpace c then ' ' else c]
  | c :: d :: rest =>
    if isJsSpace c && isJsSpace d then collapseWs (d :: rest)
    else (if isJsSpace c then ' ' else c) :: collapseWs (d :: rest)

/-- `String.prototype.trim`: drop `\s` characters from both ends. -/
def jsTrim (l : List Char) : List Char :=
  ((l.dropWhile isJsSpace).reverse.dropWhile isJsSpace).reverse

/-- `sanitizeUserName` from the README server.  `none` models a `null` or
`undefined` request field (the early-return branch); `some s` models the
string `String(input)`.  `nfkc` is the runtime's `String.normalize('NFKC')`,
taken as a parameter (it is library behaviour, applied before any character
is inspected); `isL`/`isN` are the `\p{L}`/`\p{N}` properties.
`.slice(0, 80)` is the 80-unit truncation. -/
def sanitizeUserName (isL isN : Char → Bool) (nfkc : List Char → List Char) :
    Option (List Char) → List Char
  | none => []
  | some input =>
    let normalized := nfkc input
    let stripped := normalized.filter (allowedChar isL isN)
    let collapsed := jsTrim (collapseWs stripped)
    collapsed.take 80


/-! ### Lemmas about the sanitizer -/

theorem head?_dropWhile_not {p : Char → Bool} :
    ∀ {l : List Char} {c : Char}, (l.dropWhile p).head? = some c → p c = false := by
  intro l
  induction l with
  | nil => intro c h; simp [List.dropWhile] at h
  | cons a rest ih =>
    intro c h
    by_cases hp : p a
    · rw [List.dropWhile_cons_of_pos hp] at h
      exact ih h
    · rw [List.dropWhile_cons_of_neg hp] at h
      simp at h
      subst h
      simpa using hp

theorem head?_append_left {α : Type} {xs ys : List α} (h : xs ≠ []) :
    (xs ++ ys).head? = xs.head? := by
  cases xs with
  | nil => exact absurd rfl h
  | cons a t => simp

theorem jsTrim_head_not_space {l : List Char} {c : Char}
    (h : (jsTrim l).head? = some c) : isJsSpace c = false := by
  unfold jsTrim at h
  set A := l.dropWhile isJsSpace with hA
  set D := A.reverse.dropWhile isJsSpace with hD
  have hsplit : A.reverse.takeWhile isJsSpace ++ D = A.reverse :=
    List.takeWhile_append_dropWhile ..
  have hAeq : A = D.reverse ++ (A.reverse.takeWhile isJsSpace).reverse := by
    have := congrArg List.reverse hsplit
    simpa [List.reverse_append] using this.symm
  have hDne : D.reverse ≠ [] := by
    intro hnil
    rw [hnil] at h
    simp at h
  have : A.head? = some c := by
    rw [hAeq, head?_append_left hDne]
    exact h
  exact head?_dropWhile_not (hA ▸ this)

theorem jsTrim_getLast_not_space {l : List Char} {c : Char}
    (h : (jsTrim l).getLast? = some c) : isJsSpace c = false := by
  unfold jsTrim at h
  rw [List.getLast?_reverse] at h
  exact head?_dropWhile_not h

theorem mem_collapseWs {c : Char} :
    ∀ (l : List Char), c ∈ collapseWs l → c = ' ' ∨ c ∈ l
  | [] => by intro h; simp [collapseWs] at h
  | [d] => by
    intro h
    cases hd : isJsSpace d with
    | true =>
      simp [collapseWs, hd] at h
      exact Or.inl h
    | false =>
      simp [collapseWs, hd] at h
      exact Or.inr (by simp [h])
  | d :: e :: rest => by
    intro h
    cases hd : isJsSpace d with
    | true =>
      cases he : isJsSpace e with
      | true =>
        rw [collapseWs, hd, he] at h
        simp only [Bool.and_self, if_true] at h
        rcases mem_collapseWs (e :: rest) h with h | h
        · exact Or.inl h
        · exact Or.inr (List.mem_cons_of_mem _ h)
      | false =>
        rw [collapseWs, hd, he] at h
        simp only [Bool.and_false, Bool.false_eq_true, if_false, if_true] at h
        rcases List.mem_cons.mp h with h | h
        · exact Or.inl h
        · rcases mem_collapseWs (e :: rest) h with h | h
          · exact Or.inl h
          · exact Or.inr (List.mem_cons_of_mem _ h)
    | false =>
      rw [collapseWs, hd] at h
      simp only [Bool.false_and, Bool.false_eq_true, if_false] at h
      rcases List.mem_cons.mp h with h | h
      · exact Or.inr (h ▸ List.mem_cons_self ..)
      · rcases mem_collapseWs (e :: rest) h with h | h
        · exact Or.inl h
        · exact Or.inr (List.mem_cons_of_mem _ h)

theorem mem_jsTrim {c : Char} {l : List Char} (h : c ∈ jsTrim l) : c ∈ l := by
  unfold jsTrim at h
  rw [List.mem_reverse] at h
  have := List.dropWhile_subset _ h
  rw [List.mem_reverse] at this
  exact List.dropWhile_subset _ this

theorem head?_take {α : Type} {n : Nat} (hn : n ≠ 0) (l : List α) :
    (l.take n).head? = l.head? := by
  cases l with
  | nil => simp
  | cons a t =>
    cases n with
    | zero => exact absurd rfl hn
    | succ m => simp

theorem allowedChar_space (isL isN : Char → Bool) :
    allowedChar isL isN ' ' = true := by
  simp [allowedChar]

/-- C1, amended.  `sanitizeUserName` never fails and returns `[]` on
`null`/`undefined`/empty input; the result contains only allowed characters
(letters, digits, space, `. , ' -`), is at most 80 characters long and never
starts with a space.  The original claim's "no trailing space" holds only
when the collapsed-and-trimmed name already fits in 80 characters: the
`.slice(0, 80)` truncation runs after `.trim()` and can cut the string right
after an interior space (see the counterexample). -/
theorem claim1_amended (isL isN : Char → Bool) (nfkc : List Char → List Char)
    (hnil : nfkc [] = []) (input : List Char) :
    sanitizeUserName isL isN nfkc none = [] ∧
    sanitizeUserName isL isN nfkc (some []) = [] ∧
    (sanitizeUserName isL isN nfkc (some input)).length ≤ 80 ∧
    (sanitizeUserName isL isN nfkc (some input)).all (allowedChar isL isN) = true ∧
    (sanitizeUserName isL isN nfkc (some input)).head? ≠ some ' ' ∧
    ((jsTrim (collapseWs ((nfkc input).filter (allowedChar isL isN)))).length ≤ 80 →
      (sanitizeUserName isL isN nfkc (some input)).getLast? ≠ some ' ') := by
  refine ⟨rfl, ?_, ?_, ?_, ?_, ?_⟩
  · simp [sanitizeUserName, hnil, collapseWs, jsTrim]
  · simp [sanitizeUserName]
  · rw [List.all_eq_true]
    intro c hc
    have hc' : c ∈ jsTrim (collapseWs ((nfkc input).filter (allowedChar isL isN))) :=
      List.take_subset _ _ hc
    have hc'' := mem_jsTrim hc'
    rcases mem_collapseWs _ hc'' with h | h
    · exact h ▸ allowedChar_space isL isN
    · exact List.of_mem_filter h
  · intro h
    have : (jsTrim (collapseWs ((nfkc input).filter (allowedChar isL isN)))).head? = some ' ' := by
      rw [← head?_take (by norm_num : (80 : Nat) ≠ 0)
        (jsTrim (collapseWs ((nfkc input).filter (allowedChar isL isN))))]
      exact h
    have := jsTrim_head_not_space this
    simp [isJsSpace] at this
  · intro hlen h
    rw [sanitizeUserName, List.take_of_length_le hlen] at h
    have := jsTrim_getLast_not_space h
    simp [isJsSpace] at this

/-- C1, counterexample to the claim as stated: on the 81-character input
`"a" * 79 ++ " b"` (ASCII, on which NFKC normalisation is the identity and
`\p{L}`/`\p{N}` agree with `Char.isAlpha`/`Char.isDigit`), the sanitizer
returns the first 80 characters of the trimmed name, which end in a space:
the result has a trailing space, contradicting "no leading or trailing
space" for every input. -/
theorem claim1_counterexample :
    (sanitizeUserName Char.isAlpha Char.isDigit id
      (some (List.replicate 79 'a' ++ [' ', 'b']))).getLast? = some ' ' := by
  decide

/-- Witness for `claim1_amended` at a concrete input. -/
theorem claim1_witness :
    sanitizeUserName Char.isAlpha Char.isDigit id none = [] ∧
    (sanitizeUserName Char.isAlpha Char.isDigit id
      (some (' ' :: 'A' :: 'd' :: 'a' :: '!' :: ' ' :: ' ' :: 'X' :: ' ' :: []))).all
      (allowedChar Char.isAlpha Char.isDigit) = true ∧
    (sanitizeUserName Char.isAlpha Char.isDigit id
      (some (' ' :: 'A' :: 'd' :: 'a' :: '!' :: ' ' :: ' ' :: 'X' :: ' ' :: []))).getLast? ≠
      some ' ' :=
  ⟨(claim1_amended Char.isAlpha Char.isDigit id rfl []).1,
   (claim1_amended Char.isAlpha Char.isDigit id rfl
      (' ' :: 'A' :: 'd' :: 'a' :: '!' :: ' ' :: ' ' :: 'X' :: ' ' :: [])).2.2.2.1,
   (claim1_amended Char.isAlpha Char.isDigit id rfl
      (' ' :: 'A' :: 'd' :: 'a' :: '!' :: ' ' :: ' ' :: 'X' :: ' ' :: [])).2.2.2.2.2
     (by decide)⟩



/-! ### Quiz grading and the submission handler

The `/api/submit-quiz` handler is embedded as a function from the request
fields and an oracle of external outcomes (certificate render, file write,
upload, unlink, stamp — each of which the source wraps in its own
`try`/`catch`) to the HTTP response together with the ordered list of
side-effecting steps the handler performed. -/

/-- One quiz question (`quizQuestions` entries).  Only `correct` is read by
the grading loop. -/
structure Question (α : Type) where
  prompt : List Char
  options : List (List Char)
  correct : α

/-- The grading loop:
`for (i = 0; i < quizQuestions.length; i++) if (answers[i] === quizQuestions[i].correct) correctAnswers++`.
An out-of-range `answers[i]` is `undefined`, which never equals a concrete
`correct` value; `answers[i]?` models exactly that. -/
def gradeCount {α : Type} [DecidableEq α]
    (questions : List (Question α)) (answers : List α) : Nat :=
  (List.range questions.length).countP
    (fun i => decide (answers[i]? = (questions[i]?).map Question.correct))

/-- `const isPerfect = correctAnswers === quizQuestions.length`. -/
def isPerfect {α : Type} [DecidableEq α]
    (questions : List (Question α)) (answers : List α) : Bool :=
  gradeCount questions answers == questions.length

/-- The observable steps of one run of the submission handler, in order. -/
inductive Ev where
  | graded
  | generated
  | wroteFile
  | uploadOk
  | uploadFailed
  | unlinkAttempt
  | unlinkOk
  | unlinkFailed
  | stampAttempt
  | stampOk
  | stampFailed
deriving DecidableEq

/-- Outcomes of the external operations the handler performs, one request's
worth.  `uploadResult = some h` is a 2xx upload response whose body's `hash`
field is `h` (`none` when absent); `uploadResult = none` is a thrown upload
error.  The other flags say whether the corresponding awaited call throws. -/
structure Behavior where
  genThrows : Bool
  writeThrows : Bool
  uploadResult : Option (Option (List Char))
  unlinkThrows : Bool
  stampThrows : Bool
deriving DecidableEq

/-- The handler's HTTP responses, by status and payload shape. -/
inductive Response where
  | badRequest
  | notPerfect (score total : Nat)
  | uploadError
  | serverError
  | success (score total : Nat) (fileHash : List Char)
deriving DecidableEq

/-- `'unknown'`, the sentinel used when the upload response has no usable
`hash` field. -/
def unknownHash : List Char := 'u' :: 'n' :: 'k' :: 'n' :: 'o' :: 'w' :: 'n' :: []

/-- `fileHash = response.data?.hash || 'unknown'` (an absent or empty —
falsy — hash becomes the sentinel). -/
def hashOrUnknown : Option (List Char) → List Char
  | some h => if h = [] then unknownHash else h
  | none => unknownHash

/-- Trace suffix of the `fs.unlink` `try`/`catch`. -/
def unlinkTail (b : Behavior) : List Ev :=
  if b.unlinkThrows then [.unlinkFailed] else [.unlinkOk]

/-- Trace suffix of the stamp `try`/`catch`. -/
def stampTail (b : Behavior) : List Ev :=
  if b.stampThrows then [.stampFailed] else [.stampOk]

/-- The `POST /api/submit-quiz` handler of the README server: sanitize the
name, validate, grade, and on a perfect score generate/write/upload the
certificate, attempt to delete the local file on both upload outcomes,
stamp (best-effort) and answer.  A `genThrows`/`writeThrows` exception is
caught by the handler's outer `catch` (500). -/
def submitQuiz {α : Type} [DecidableEq α] (isL isN : Char → Bool)
    (nfkc : List Char → List Char) (questions : List (Question α)) (b : Behavior)
    (name : Option (List Char)) (answers : Option (List α)) : Response × List Ev :=
  let safeName := sanitizeUserName isL isN nfkc name
  match answers with
  | none => (.badRequest, [])
  | some as =>
    if safeName = [] ∨ as.length ≠ questions.length then (.badRequest, [])
    else if isPerfect questions as then
      if b.genThrows then (.serverError, [.graded])
      else if b.writeThrows then (.serverError, [.graded, .generated])
      else
        match b.uploadResult with
        | none =>
          (.uploadError,
            [.graded, .generated, .wroteFile, .uploadFailed, .unlinkAttempt] ++ unlinkTail b)
        | some hashField =>
          (.success (gradeCount questions as) questions.length (hashOrUnknown hashField),
            [.graded, .generated, .wroteFile, .uploadOk, .unlinkAttempt] ++ unlinkTail b ++
              [.stampAttempt] ++ stampTail b)
    else
      (.notPerfect (gradeCount questions as) questions.length, [.graded])

/-! ### Lemmas about grading -/

theorem gradeCount_nil {α : Type} [DecidableEq α] (answers : List α) :
    gradeCount ([] : List (Question α)) answers = 0 := rfl

theorem gradeCount_cons {α : Type} [DecidableEq α] (q : Question α)
    (qs : List (Question α)) (a : α) (as : List α) :
    gradeCount (q :: qs) (a :: as) =
      (if a = q.correct then 1 else 0) + gradeCount qs as := by
  unfold gradeCount
  rw [List.length_cons, List.range_succ_eq_map, List.countP_cons, List.countP_map]
  have hcomp :
      ((fun i => decide ((a :: as)[i]? = ((q :: qs)[i]?).map Question.correct)) ∘
        (fun i => i + 1)) =
      (fun i => decide (as[i]? = (qs[i]?).map Question.correct)) := by
    funext i
    simp
  rw [hcomp]
  simp only [List.getElem?_cons_zero, Option.map_some]
  by_cases h : a = q.correct <;> simp [h, Nat.add_comm]

theorem gradeCount_eq_zip_countP {α : Type} [DecidableEq α] :
    ∀ (questions : List (Question α)) (answers : List α),
      answers.length = questions.length →
      gradeCount questions answers =
        (questions.zip answers).countP (fun qa => decide (qa.2 = qa.1.correct))
  | [], [], _ => rfl
  | [], _ :: _, h => by simp at h
  | _ :: _, [], h => by simp at h
  | q :: qs, a :: as, h => by
    rw [gradeCount_cons, List.zip_cons_cons, List.countP_cons,
      gradeCount_eq_zip_countP qs as (by simpa using h)]
    by_cases hqa : a = q.correct <;> simp [hqa, Nat.add_comm]

theorem gradeCount_le {α : Type} [DecidableEq α]
    (questions : List (Question α)) (answers : List α) :
    gradeCount questions answers ≤ questions.length := by
  unfold gradeCount
  have h1 : (List.range questions.length).countP
      (fun i => decide (answers[i]? = (questions[i]?).map Question.correct)) ≤
      (List.range questions.length).length := List.countP_le_length _
  simpa using h1

/-- C2: grading is positional and total.  With matching lengths, the count
is the number of positions where the answer equals that question's
`correct`; `isPerfect` holds iff the count equals the number of questions;
any single mismatched index forces `isPerfect = false`; the empty quiz
grades as perfect with 0 of 0. -/
theorem claim2_grading {α : Type} [DecidableEq α]
    (questions : List (Question α)) (answers : List α)
    (h : answers.length = questions.length) :
    gradeCount questions answers =
      (questions.zip answers).countP (fun qa => decide (qa.2 = qa.1.correct)) ∧
    (isPerfect questions answers = true ↔
      gradeCount questions answers = questions.length) ∧
    (∀ i, i < questions.length →
      answers[i]? ≠ (questions[i]?).map Question.correct →
      isPerfect questions answers = false) ∧
    gradeCount ([] : List (Question α)) [] = 0 ∧
    isPerfect ([] : List (Question α)) [] = true := by
  refine ⟨gradeCount_eq_zip_countP questions answers h, by simp [isPerfect], ?_, rfl, rfl⟩
  intro i hi hne
  have hlt : gradeCount questions answers < questions.length := by
    rcases Nat.lt_or_ge (gradeCount questions answers) questions.length with hlt | hge
    · exact hlt
    · exfalso
      have heq : gradeCount questions answers = questions.length :=
        Nat.le_antisymm (gradeCount_le questions answers) hge
      unfold gradeCount at heq
      have heq' : (List.range questions.length).countP
          (fun i => decide (answers[i]? = (questions[i]?).map Question.correct)) =
          (List.range questions.length).length := by
        rw [List.length_range]
        exact heq
      have hall := List.countP_eq_length.mp heq' i (by simpa using hi)
      simp only [decide_eq_true_eq] at hall
      exact hne hall
  simp [isPerfect, Nat.ne_of_lt hlt]

/-- Witness for `claim2_grading`: the README's three-question quiz with
correct answers `[8, 19, 40]`, submitted answers `[8, 19, 41]`:
2 of 3 and not perfect. -/
theorem claim2_witness :
    gradeCount
      [⟨[], [], 8⟩, ⟨[], [], 19⟩, ⟨[], [], 40⟩]
      ([8, 19, 41] : List Nat) = 2 ∧
    isPerfect
      [⟨[], [], 8⟩, ⟨[], [], 19⟩, ⟨[], [], 40⟩]
      ([8, 19, 41] : List Nat) = false :=
  ⟨by decide,
   (claim2_grading [⟨[], [], 8⟩, ⟨[], [], 19⟩, ⟨[], [], 40⟩]
      ([8, 19, 41] : List Nat) (by decide)).2.2.1 2 (by decide) (by decide)⟩



/-! ### Lemmas about the submission handler -/

theorem submitQuiz_none {α : Type} [DecidableEq α] (isL isN : Char → Bool)
    (nfkc : List Char → List Char) (questions : List (Question α)) (b : Behavior)
    (name : Option (List Char)) :
    submitQuiz isL isN nfkc questions b name none = (.badRequest, []) := rfl

theorem submitQuiz_some_eq {α : Type} [DecidableEq α] (isL isN : Char → Bool)
    (nfkc : List Char → List Char) (questions : List (Question α)) (b : Behavior)
    (name : Option (List Char)) (as : List α) :
    submitQuiz isL isN nfkc questions b name (some as) =
      (if sanitizeUserName isL isN nfkc name = [] ∨ as.length ≠ questions.length then
        (.badRequest, [])
      else if isPerfect questions as then
        if b.genThrows then (.serverError, [.graded])
        else if b.writeThrows then (.serverError, [.graded, .generated])
        else
          match b.uploadResult with
          | none =>
            (.uploadError,
              [.graded, .generated, .wroteFile, .uploadFailed, .unlinkAttempt] ++ unlinkTail b)
          | some hashField =>
            (.success (gradeCount questions as) questions.length (hashOrUnknown hashField),
              [.graded, .generated, .wroteFile, .uploadOk, .unlinkAttempt] ++ unlinkTail b ++
                [.stampAttempt] ++ stampTail b)
      else (.notPerfect (gradeCount questions as) questions.length, [.graded])) := rfl

/-- C8: a submission whose sanitized name is empty, or whose answers list
length differs from the question count, is answered with the 400 response
and no grading (or any later step) is performed. -/
theorem claim8_reject {α : Type} [DecidableEq α] (isL isN : Char → Bool)
    (nfkc : List Char → List Char) (questions : List (Question α)) (b : Behavior)
    (name : Option (List Char)) (answers : Option (List α))
    (h : sanitizeUserName isL isN nfkc name = [] ∨
      (∃ as, answers = some as ∧ as.length ≠ questions.length)) :
    (submitQuiz isL isN nfkc questions b name answers).1 = Response.badRequest ∧
    (submitQuiz isL isN nfkc questions b name answers).2 = [] := by
  cases answers with
  | none => exact ⟨rfl, rfl⟩
  | some as =>
    have hcond : sanitizeUserName isL isN nfkc name = [] ∨ as.length ≠ questions.length := by
      rcases h with h | ⟨as', heq, hlen⟩
      · exact Or.inl h
      · obtain rfl := Option.some.inj heq
        exact Or.inr hlen
    rw [submitQuiz_some_eq, if_pos hcond]
    exact ⟨rfl, rfl⟩

/-- Witness for `claim8_reject`: one too few answers for the three-question
quiz is rejected with 400 before grading. -/
theorem claim8_witness :
    (submitQuiz Char.isAlpha Char.isDigit id
      [⟨[], [], 8⟩, ⟨[], [], 19⟩, ⟨[], [], 40⟩]
      ⟨false, false, some none, false, false⟩
      (some ['A', 'd', 'a']) (some ([8, 19] : List Nat))).1 = Response.badRequest ∧
    (submitQuiz Char.isAlpha Char.isDigit id
      [⟨[], [], 8⟩, ⟨[], [], 19⟩, ⟨[], [], 40⟩]
      ⟨false, false, some none, false, false⟩
      (some ['A', 'd', 'a']) (some ([8, 19] : List Nat))).2 = [] :=
  claim8_reject Char.isAlpha Char.isDigit id
    [⟨[], [], 8⟩, ⟨[], [], 19⟩, ⟨[], [], 40⟩]
    ⟨false, false, some none, false, false⟩
    (some ['A', 'd', 'a']) (some ([8, 19] : List Nat))
    (Or.inr ⟨[8, 19], rfl, by decide⟩)

/-- C4: in every run of the handler, a stamp attempt happens only after (and
never without) a successful upload; an upload failure means no stamp attempt;
once the upload succeeded the response is the success payload; and flipping
only the stamp outcome never changes the response. -/
theorem claim4_stamp_order {α : Type} [DecidableEq α] (isL isN : Char → Bool)
    (nfkc : List Char → List Char) (questions : List (Question α)) (b : Behavior)
    (name : Option (List Char)) (answers : Option (List α)) :
    (Ev.stampAttempt ∈ (submitQuiz isL isN nfkc questions b name answers).2 →
      List.Sublist [Ev.uploadOk, Ev.stampAttempt]
        (submitQuiz isL isN nfkc questions b name answers).2) ∧
    (Ev.uploadFailed ∈ (submitQuiz isL isN nfkc questions b name answers).2 →
      Ev.stampAttempt ∉ (submitQuiz isL isN nfkc questions b name answers).2) ∧
    (Ev.uploadOk ∈ (submitQuiz isL isN nfkc questions b name answers).2 →
      ∃ sc tot fh,
        (submitQuiz isL isN nfkc questions b name answers).1 =
          Response.success sc tot fh) ∧
    (submitQuiz isL isN nfkc questions
        { b with stampThrows := true } name answers).1 =
      (submitQuiz isL isN nfkc questions
        { b with stampThrows := false } name answers).1 := by
  obtain ⟨bg, bw, bu, bun, bst⟩ := b
  cases answers with
  | none =>
    refine ⟨?_, ?_, ?_, rfl⟩ <;> (intro h; simp [submitQuiz_none] at h)
  | some as =>
    by_cases h1 : sanitizeUserName isL isN nfkc name = [] ∨ as.length ≠ questions.length
    · rw [submitQuiz_some_eq, if_pos h1]
      refine ⟨?_, ?_, ?_, ?_⟩
      · intro h; simp at h
      · intro h; simp at h
      · intro h; simp at h
      · rw [submitQuiz_some_eq, if_pos h1, submitQuiz_some_eq, if_pos h1]
    · by_cases h2 : isPerfect questions as
      · cases bg with
        | true =>
          rw [submitQuiz_some_eq, if_neg h1, if_pos h2]
          refine ⟨?_, ?_, ?_, ?_⟩
          · intro h; simp at h
          · intro h; simp at h
          · intro h; simp at h
          · simp only [submitQuiz_some_eq, if_neg h1, if_pos h2]
            try rfl
        | false =>
          cases bw with
          | true =>
            rw [submitQuiz_some_eq, if_neg h1, if_pos h2]
            refine ⟨?_, ?_, ?_, ?_⟩
            · intro h; simp at h
            · intro h; simp at h
            · intro h; simp at h
            · simp only [submitQuiz_some_eq, if_neg h1, if_pos h2]
              try rfl
          | false =>
            cases bu with
            | none =>
              cases bun with
              | true =>
                rw [submitQuiz_some_eq, if_neg h1, if_pos h2]
                refine ⟨?_, ?_, ?_, ?_⟩
                · intro h; simp [unlinkTail] at h
                · intro _; simp [unlinkTail]
                · intro h; simp [unlinkTail] at h
                · simp only [submitQuiz_some_eq, if_neg h1, if_pos h2]
                  try rfl
              | false =>
                rw [submitQuiz_some_eq, if_neg h1, if_pos h2]
                refine ⟨?_, ?_, ?_, ?_⟩
                · intro h; simp [unlinkTail] at h
                · intro _; simp [unlinkTail]
                · intro h; simp [unlinkTail] at h
                · simp only [submitQuiz_some_eq, if_neg h1, if_pos h2]
                  try rfl
            | some hf =>
              cases bun with
              | true =>
                cases bst with
                | true =>
                  rw [submitQuiz_some_eq, if_neg h1, if_pos h2]
                  refine ⟨?_, ?_, ?_, ?_⟩
                  · intro _; simp [unlinkTail, stampTail]; decide
                  · intro h; simp [unlinkTail, stampTail] at h
                  · intro _; exact ⟨_, _, _, rfl⟩
                  · simp only [submitQuiz_some_eq, if_neg h1, if_pos h2]
                    try rfl
                | false =>
                  rw [submitQuiz_some_eq, if_neg h1, if_pos h2]
                  refine ⟨?_, ?_, ?_, ?_⟩
                  · intro _; simp [unlinkTail, stampTail]; decide
                  · intro h; simp [unlinkTail, stampTail] at h
                  · intro _; exact ⟨_, _, _, rfl⟩
                  · simp only [submitQuiz_some_eq, if_neg h1, if_pos h2]
                    try rfl
              | false =>
                cases bst with
                | true =>
                  rw [submitQuiz_some_eq, if_neg h1, if_pos h2]
                  refine ⟨?_, ?_, ?_, ?_⟩
                  · intro _; simp [unlinkTail, stampTail]; decide
                  · intro h; simp [unlinkTail, stampTail] at h
                  · intro _; exact ⟨_, _, _, rfl⟩
                  · simp only [submitQuiz_some_eq, if_neg h1, if_pos h2]
                    try rfl
                | false =>
                  rw [submitQuiz_some_eq, if_neg h1, if_pos h2]
                  refine ⟨?_, ?_, ?_, ?_⟩
                  · intro _; simp [unlinkTail, stampTail]; decide
                  · intro h; simp [unlinkTail, stampTail] at h
                  · intro _; exact ⟨_, _, _, rfl⟩
                  · simp only [submitQuiz_some_eq, if_neg h1, if_pos h2]
                    try rfl
      · rw [submitQuiz_some_eq, if_neg h1, if_neg h2]
        refine ⟨?_, ?_, ?_, ?_⟩
        · intro h; simp at h
        · intro h; simp at h
        · intro h; simp at h
        · simp only [submitQuiz_some_eq, if_neg h1, if_neg h2]
          try rfl

/-- Witness for `claim4_stamp_order`: empty quiz, trivially perfect score,
upload succeeds without a hash, stamp throws — the stamp attempt is
preceded by the successful upload. -/
theorem claim4_witness :
    List.Sublist [Ev.uploadOk, Ev.stampAttempt]
      (submitQuiz Char.isAlpha Char.isDigit id ([] : List (Question Nat))
        ⟨false, false, some none, false, true⟩ (some ['A']) (some [])).2 :=
  (claim4_stamp_order Char.isAlpha Char.isDigit id ([] : List (Question Nat))
    ⟨false, false, some none, false, true⟩ (some ['A']) (some [])).1 (by decide)



/-- C3, amended.  On every run in which the transient certificate file was
written, a deletion attempt (`fs.unlink` inside its own `try`) happens
before the handler responds, on the success path and the failed-upload path
alike; when that unlink call itself does not throw the file is deleted.
The original claim's unconditional "is deleted" fails when the unlink call
throws: the handler only logs the failure and still returns its response
(see the counterexample). -/
theorem claim3_amended {α : Type} [DecidableEq α] (isL isN : Char → Bool)
    (nfkc : List Char → List Char) (questions : List (Question α)) (b : Behavior)
    (name : Option (List Char)) (answers : Option (List α)) :
    Ev.wroteFile ∈ (submitQuiz isL isN nfkc questions b name answers).2 →
      List.Sublist [Ev.wroteFile, Ev.unlinkAttempt]
        (submitQuiz isL isN nfkc questions b name answers).2 ∧
      (b.unlinkThrows = false →
        List.Sublist [Ev.wroteFile, Ev.unlinkOk]
          (submitQuiz isL isN nfkc questions b name answers).2) ∧
      (b.unlinkThrows = true →
        Ev.unlinkOk ∉ (submitQuiz isL isN nfkc questions b name answers).2) := by
  obtain ⟨bg, bw, bu, bun, bst⟩ := b
  cases answers with
  | none => intro h; simp [submitQuiz_none] at h
  | some as =>
    by_cases h1 : sanitizeUserName isL isN nfkc name = [] ∨ as.length ≠ questions.length
    · rw [submitQuiz_some_eq, if_pos h1]
      intro h; simp at h
    · by_cases h2 : isPerfect questions as
      · cases bg with
        | true =>
          rw [submitQuiz_some_eq, if_neg h1, if_pos h2]
          intro h; simp at h
        | false =>
          cases bw with
          | true =>
            rw [submitQuiz_some_eq, if_neg h1, if_pos h2]
            intro h; simp at h
          | false =>
            cases bu with
            | none =>
              cases bun with
              | true =>
                rw [submitQuiz_some_eq, if_neg h1, if_pos h2]
                intro _
                refine ⟨by simp [unlinkTail]; try decide, ?_, ?_⟩
                · intro hfalse; simp at hfalse
                · intro _; simp [unlinkTail]
              | false =>
                rw [submitQuiz_some_eq, if_neg h1, if_pos h2]
                intro _
                refine ⟨by simp [unlinkTail]; try decide, ?_, ?_⟩
                · intro _; simp [unlinkTail]; try decide
                · intro hfalse; simp at hfalse
            | some hf =>
              cases bun with
              | true =>
                cases bst with
                | true =>
                  rw [submitQuiz_some_eq, if_neg h1, if_pos h2]
                  intro _
                  refine ⟨by simp [unlinkTail, stampTail]; try decide, ?_, ?_⟩
                  · intro hfalse; simp at hfalse
                  · intro _; simp [unlinkTail, stampTail]
                | false =>
                  rw [submitQuiz_some_eq, if_neg h1, if_pos h2]
                  intro _
                  refine ⟨by simp [unlinkTail, stampTail]; try decide, ?_, ?_⟩
                  · intro hfalse; simp at hfalse
                  · intro _; simp [unlinkTail, stampTail]
              | false =>
                cases bst with
                | true =>
                  rw [submitQuiz_some_eq, if_neg h1, if_pos h2]
                  intro _
                  refine ⟨by simp [unlinkTail, stampTail]; try decide, ?_, ?_⟩
                  · intro _; simp [unlinkTail, stampTail]; try decide
                  · intro hfalse; simp at hfalse
                | false =>
                  rw [submitQuiz_some_eq, if_neg h1, if_pos h2]
                  intro _
                  refine ⟨by simp [unlinkTail, stampTail]; try decide, ?_, ?_⟩
                  · intro _; simp [unlinkTail, stampTail]; try decide
                  · intro hfalse; simp at hfalse
      · rw [submitQuiz_some_eq, if_neg h1, if_neg h2]
        intro h; simp at h

/-- C3, counterexample to the claim as stated: on a run where the upload
succeeds but the `fs.unlink` call throws, the handler logs the failure and
returns the success response with the transient file still on disk — the
file was written, never deleted, and the handler exited normally. -/
theorem claim3_counterexample :
    Ev.wroteFile ∈ (submitQuiz Char.isAlpha Char.isDigit id
      ([] : List (Question Nat)) ⟨false, false, some none, true, false⟩
      (some ['A']) (some [])).2 ∧
    Ev.unlinkOk ∉ (submitQuiz Char.isAlpha Char.isDigit id
      ([] : List (Question Nat)) ⟨false, false, some none, true, false⟩
      (some ['A']) (some [])).2 ∧
    (submitQuiz Char.isAlpha Char.isDigit id
      ([] : List (Question Nat)) ⟨false, false, some none, true, false⟩
      (some ['A']) (some [])).1 = Response.success 0 0 unknownHash := by
  decide

/-- Witness for `claim3_amended`: failed upload with a working unlink —
the write is followed by a successful deletion. -/
theorem claim3_witness :
    List.Sublist [Ev.wroteFile, Ev.unlinkOk]
      (submitQuiz Char.isAlpha Char.isDigit id ([] : List (Question Nat))
        ⟨false, false, none, false, false⟩ (some ['A']) (some [])).2 :=
  ((claim3_amended Char.isAlpha Char.isDigit id ([] : List (Question Nat))
      ⟨false, false, none, false, false⟩ (some ['A']) (some []))
    (by decide)).2.1 rfl



/-! ### JavaScript `String.prototype.replace` with a global literal pattern

`result.replace(new RegExp(pattern, 'g'), replacement)` where the pattern
matches a fixed literal string: scan left to right, replace each
non-overlapping occurrence, and interpret the replacement string's `$`
escapes (`$$`, `$&`, backtick, `$'`; the patterns used by the source have
no capture groups, so `$n`/`$<...>` stay literal).  The scan is written
with an explicit skip counter so that the recursion is structural and the
functions evaluate in the kernel. -/

/-- `true` iff the replacement string contains no `$` (then JavaScript's
`GetSubstitution` inserts it verbatim). -/
def noDollar (l : List Char) : Bool := l.all (fun c => !(c == '$'))

/-- JavaScript `GetSubstitution` for a groupless pattern: expand `$$`, `$&`
(the matched text), `$`+backtick (text before the match) and `$'` (text
after the match); any other character, including a trailing lone `$`, is
copied. -/
def expandRepl (matched before after : List Char) : List Char → List Char
  | [] => []
  | [c] => [c]
  | c :: d :: rest =>
    if c = '$' then
      if d = '$' then '$' :: expandRepl matched before after rest
      else if d = '&' then matched ++ expandRepl matched before after rest
      else if d = Char.ofNat 96 then before ++ expandRepl matched before after rest
      else if d = '\'' then after ++ expandRepl matched before after rest
      else c :: expandRepl matched before after (d :: rest)
    else c :: expandRepl matched before after (d :: rest)

theorem expandRepl_noDollar (matched before after : List Char) :
    ∀ (repl : List Char), noDollar repl = true →
      expandRepl matched before after repl = repl
  | [] => fun _ => rfl
  | [c] => fun _ => rfl
  | c :: d :: rest => fun h => by
    have hc : ¬(c = '$') := by
      simp [noDollar, List.all_cons] at h
      simpa using h.1
    have htail : noDollar (d :: rest) = true := by
      simp [noDollar, List.all_cons] at h ⊢
      exact h.2
    rw [expandRepl, if_neg hc, expandRepl_noDollar matched before after (d :: rest) htail]

/-- The scanning loop of a global-literal replace.  `consumed` is the part
of the subject before the current position (needed by the positional `$`
escapes), `skip` is the number of characters of an already-replaced match
still to pass over. -/
def replGo (pat repl : List Char) : Nat → List Char → List Char → List Char
  | _, _, [] => []
  | 0, consumed, c :: rest =>
    if pat ≠ [] ∧ pat.isPrefixOf (c :: rest) = true then
      expandRepl pat consumed ((c :: rest).drop pat.length) repl ++
        replGo pat repl (pat.length - 1) (consumed ++ [c]) rest
    else
      c :: replGo pat repl 0 (consumed ++ [c]) rest
  | k + 1, consumed, c :: rest => replGo pat repl k (consumed ++ [c]) rest

/-- `subject.replace(/pat/g, repl)` for a literal pattern `pat`. -/
def jsReplaceAll (pat repl s : List Char) : List Char := replGo pat repl 0 [] s

/-- Splitting a string at the non-overlapping left-to-right occurrences of a
literal pattern (specification-side mirror of the scan). -/
def splitGo (pat : List Char) : Nat → List Char → List (List Char)
  | _, [] => [[]]
  | 0, c :: rest =>
    if pat ≠ [] ∧ pat.isPrefixOf (c :: rest) = true then
      [] :: splitGo pat (pat.length - 1) rest
    else
      match splitGo pat 0 rest with
      | [] => [[c]]
      | seg :: segs => (c :: seg) :: segs
  | k + 1, _ :: rest => splitGo pat k rest

def splitOnPat (pat s : List Char) : List (List Char) := splitGo pat 0 s

/-- Interleave a separator between segments. -/
def joinWith (sep : List Char) : List (List Char) → List Char
  | [] => []
  | [x] => x
  | x :: y :: t => x ++ sep ++ joinWith sep (y :: t)

theorem replGo_skip (pat repl : List Char) :
    ∀ (s : List Char) (k : Nat) (consumed : List Char),
      replGo pat repl k consumed s =
        replGo pat repl 0 (consumed ++ s.take k) (s.drop k)
  | [], k, consumed => by cases k <;> simp [replGo]
  | c :: rest, 0, consumed => by simp
  | c :: rest, k + 1, consumed => by
    rw [replGo, replGo_skip pat repl rest k (consumed ++ [c])]
    simp

theorem splitGo_skip (pat : List Char) :
    ∀ (s : List Char) (k : Nat),
      splitGo pat k s = splitGo pat 0 (s.drop k)
  | [], k => by cases k <;> simp [splitGo]
  | c :: rest, 0 => by simp
  | c :: rest, k + 1 => by
    rw [splitGo, splitGo_skip pat rest k]
    simp

theorem isPrefixOf_exists_append :
    ∀ (l₁ l₂ : List Char), l₁.isPrefixOf l₂ = true → ∃ t, l₂ = l₁ ++ t
  | [], l₂, _ => ⟨l₂, rfl⟩
  | a :: as2, [], h => by simp [List.isPrefixOf] at h
  | a :: as2, b :: bs, h => by
    rw [List.isPrefixOf] at h
    simp only [Bool.and_eq_true, beq_iff_eq] at h
    obtain ⟨t, ht⟩ := isPrefixOf_exists_append as2 bs h.2
    exact ⟨t, by simp [← h.1, ht]⟩

theorem isPrefixOf_take {pat s : List Char} (h : pat.isPrefixOf s = true) :
    s.take pat.length = pat := by
  obtain ⟨t, rfl⟩ := isPrefixOf_exists_append pat s h
  simp

theorem replGo_match {pat repl consumed c : _} {rest : List Char}
    (h : pat ≠ [] ∧ pat.isPrefixOf (c :: rest) = true) :
    replGo pat repl 0 consumed (c :: rest) =
      expandRepl pat consumed ((c :: rest).drop pat.length) repl ++
        replGo pat repl 0 (consumed ++ pat) ((c :: rest).drop pat.length) := by
  rw [replGo, if_pos h, replGo_skip pat repl rest (pat.length - 1) (consumed ++ [c])]
  have hp : 0 < pat.length := List.length_pos.mpr h.1
  have hm' : pat.length = (pat.length - 1) + 1 := by omega
  have h1 : (consumed ++ [c]) ++ rest.take (pat.length - 1) = consumed ++ pat := by
    rw [List.append_assoc]
    congr 1
    have htake := isPrefixOf_take h.2
    rw [hm', List.take_succ_cons] at htake
    simpa using htake
  have h2 : rest.drop (pat.length - 1) = (c :: rest).drop pat.length := by
    conv_rhs => rw [hm']
    rw [List.drop_succ_cons]
  rw [h1, h2]

theorem splitGo_match {pat c : _} {rest : List Char}
    (h : pat ≠ [] ∧ pat.isPrefixOf (c :: rest) = true) :
    splitGo pat 0 (c :: rest) = [] :: splitGo pat 0 ((c :: rest).drop pat.length) := by
  rw [splitGo, if_pos h, splitGo_skip pat rest (pat.length - 1)]
  have hp : 0 < pat.length := List.length_pos.mpr h.1
  have hm' : pat.length = (pat.length - 1) + 1 := by omega
  have h2 : rest.drop (pat.length - 1) = (c :: rest).drop pat.length := by
    conv_rhs => rw [hm']
    rw [List.drop_succ_cons]
  rw [h2]

theorem splitGo_ne_nil (pat : List Char) : ∀ (k : Nat) (s : List Char), splitGo pat k s ≠ []
  | k, [] => by cases k <;> simp [splitGo]
  | 0, c :: rest => by
    rw [splitGo]
    split
    · simp
    · rcases hsp : splitGo pat 0 rest with _ | ⟨seg, segs⟩ <;> simp
  | k + 1, c :: rest => by
    rw [splitGo]
    exact splitGo_ne_nil pat k rest

theorem joinWith_cons_cons (sep : List Char) (c : Char) (seg : List Char)
    (segs : List (List Char)) :
    joinWith sep ((c :: seg) :: segs) = c :: joinWith sep (seg :: segs) := by
  cases segs with
  | nil => rfl
  | cons d t => simp [joinWith]

/-- A single global-literal replace pass with a `$`-free replacement is
exactly: split the subject at the pattern's non-overlapping occurrences and
interleave the replacement — in particular the text it inserts is never
rescanned within that pass. -/
theorem replGo_eq_joinWith (pat repl : List Char) (hd : noDollar repl = true) :
    ∀ (n : Nat) (s consumed : List Char), s.length ≤ n →
      replGo pat repl 0 consumed s = joinWith repl (splitOnPat pat s)
  | 0, s, consumed => by
    intro hle
    have : s = [] := List.eq_nil_of_length_eq_zero (Nat.le_zero.mp hle)
    subst this
    rfl
  | n + 1, s, consumed => by
    intro hle
    cases s with
    | nil => rfl
    | cons c rest =>
      by_cases hm : pat ≠ [] ∧ pat.isPrefixOf (c :: rest) = true
      · rw [replGo_match hm]
        unfold splitOnPat
        rw [splitGo_match hm]
        rw [expandRepl_noDollar _ _ _ _ hd]
        have hp : 0 < pat.length := List.length_pos.mpr hm.1
        have hlen : ((c :: rest).drop pat.length).length ≤ n := by
          simp only [List.length_drop, List.length_cons] at *
          omega
        rw [replGo_eq_joinWith pat repl hd n ((c :: rest).drop pat.length)
          (consumed ++ pat) hlen]
        unfold splitOnPat
        rcases hsp : splitGo pat 0 ((c :: rest).drop pat.length) with _ | ⟨seg, segs⟩
        · exact absurd hsp (splitGo_ne_nil pat 0 _)
        · simp [joinWith]
      · rw [replGo, if_neg hm]
        have hlen : rest.length ≤ n := by
          simp only [List.length_cons] at hle
          omega
        rw [replGo_eq_joinWith pat repl hd n rest (consumed ++ [c]) hlen]
        unfold splitOnPat
        rw [splitGo, if_neg hm]
        rcases hsp : splitGo pat 0 rest with _ | ⟨seg, segs⟩
        · exact absurd hsp (splitGo_ne_nil pat 0 rest)
        · rw [joinWith_cons_cons]

/-- The single-pass characterization, packaged for `jsReplaceAll`. -/
theorem jsReplaceAll_eq_joinWith (pat repl s : List Char)
    (hd : noDollar repl = true) :
    jsReplaceAll pat repl s = joinWith repl (splitOnPat pat s) :=
  replGo_eq_joinWith pat repl hd s.length s [] (Nat.le_refl _)



/-! ### `escapeXml` -/

/-- `escapeXml` from `applyTemplatePlaceholders`: five sequential global
replaces, `&`→`&amp;` first, then `<`, `>`, `"`, `'`. -/
def escapeXml (v : List Char) : List Char :=
  jsReplaceAll ['\''] ('&' :: 'a' :: 'p' :: 'o' :: 's' :: ';' :: [])
    (jsReplaceAll ['"'] ('&' :: 'q' :: 'u' :: 'o' :: 't' :: ';' :: [])
      (jsReplaceAll ['>'] ('&' :: 'g' :: 't' :: ';' :: [])
        (jsReplaceAll ['<'] ('&' :: 'l' :: 't' :: ';' :: [])
          (jsReplaceAll ['&'] ('&' :: 'a' :: 'm' :: 'p' :: ';' :: []) v))))

/-- Per-character form of the five escape passes (each later pass never
touches the text inserted by an earlier one). -/
def escChar (d : Char) : List Char :=
  if d = '&' then '&' :: 'a' :: 'm' :: 'p' :: ';' :: []
  else if d = '<' then '&' :: 'l' :: 't' :: ';' :: []
  else if d = '>' then '&' :: 'g' :: 't' :: ';' :: []
  else if d = '"' then '&' :: 'q' :: 'u' :: 'o' :: 't' :: ';' :: []
  else if d = '\'' then '&' :: 'a' :: 'p' :: 'o' :: 's' :: ';' :: []
  else [d]

theorem replGo_single (c : Char) (repl : List Char) (hd : noDollar repl = true) :
    ∀ (s consumed : List Char),
      replGo [c] repl 0 consumed s =
        s.flatMap (fun d => if d = c then repl else [d])
  | [], _ => rfl
  | d :: rest, consumed => by
    by_cases hdc : d = c
    · have hm : [c] ≠ [] ∧ ([c] : List Char).isPrefixOf (d :: rest) = true := by
        refine ⟨by simp, ?_⟩
        simp [List.isPrefixOf, hdc]
      rw [replGo_match hm]
      rw [expandRepl_noDollar _ _ _ _ hd]
      simp only [List.length_cons, List.length_nil, List.drop_succ_cons, List.drop_zero]
      rw [replGo_single c repl hd rest (consumed ++ [c])]
      simp [hdc]
    · have hm : ¬([c] ≠ [] ∧ ([c] : List Char).isPrefixOf (d :: rest) = true) := by
        intro hcon
        have hpre := hcon.2
        simp [List.isPrefixOf] at hpre
        exact hdc hpre.symm
      rw [replGo, if_neg hm, replGo_single c repl hd rest (consumed ++ [d])]
      simp [hdc]

theorem jsReplaceAll_single (c : Char) (repl s : List Char) (hd : noDollar repl = true) :
    jsReplaceAll [c] repl s = s.flatMap (fun d => if d = c then repl else [d]) :=
  replGo_single c repl hd s []

theorem escapeXml_eq_flatMap (v : List Char) : escapeXml v = v.flatMap escChar := by
  unfold escapeXml
  rw [jsReplaceAll_single '&' _ _ (by decide), jsReplaceAll_single '<' _ _ (by decide),
    jsReplaceAll_single '>' _ _ (by decide), jsReplaceAll_single '"' _ _ (by decide),
    jsReplaceAll_single '\'' _ _ (by decide)]
  induction v with
  | nil => rfl
  | cons d rest ih =>
    simp only [List.flatMap_cons, List.flatMap_append] at *
    rw [ih]
    congr 1
    by_cases h1 : d = '&'
    · subst h1; rfl
    · by_cases h2 : d = '<'
      · subst h2; rfl
      · by_cases h3 : d = '>'
        · subst h3; rfl
        · by_cases h4 : d = '"'
          · subst h4; rfl
          · by_cases h5 : d = '\''
            · subst h5; rfl
            · simp [escChar, h1, h2, h3, h4, h5]

/-- Checker: every `&` in the string begins one of the five XML entity
references produced by `escapeXml`. -/
def entityOnlyAmps : List Char → Bool
  | [] => true
  | d :: rest =>
    if d = '&' then
      (('a' :: 'm' :: 'p' :: ';' :: []).isPrefixOf rest ||
       ('l' :: 't' :: ';' :: []).isPrefixOf rest ||
       ('g' :: 't' :: ';' :: []).isPrefixOf rest ||
       ('q' :: 'u' :: 'o' :: 't' :: ';' :: []).isPrefixOf rest ||
       ('a' :: 'p' :: 'o' :: 's' :: ';' :: []).isPrefixOf rest) &&
      entityOnlyAmps rest
    else entityOnlyAmps rest

theorem entityOnlyAmps_cons_of_ne {d : Char} (rest : List Char) (h : d ≠ '&') :
    entityOnlyAmps (d :: rest) = entityOnlyAmps rest := by
  rw [entityOnlyAmps, if_neg h]

theorem entityOnlyAmps_escChar (d : Char) (tail : List Char) :
    entityOnlyAmps (escChar d ++ tail) = entityOnlyAmps tail := by
  by_cases h1 : d = '&'
  · subst h1
    have hesc : escChar '&' = '&' :: 'a' :: 'm' :: 'p' :: ';' :: [] := by decide
    rw [hesc]
    simp only [List.cons_append, List.nil_append]
    rw [entityOnlyAmps, if_pos rfl]
    have hpre : ('a' :: 'm' :: 'p' :: ';' :: []).isPrefixOf
        ('a' :: 'm' :: 'p' :: ';' :: tail) = true := by
      simp [List.isPrefixOf]
    rw [hpre]
    simp only [Bool.true_or, Bool.true_and]
    rw [entityOnlyAmps_cons_of_ne _ (by decide), entityOnlyAmps_cons_of_ne _ (by decide),
      entityOnlyAmps_cons_of_ne _ (by decide), entityOnlyAmps_cons_of_ne _ (by decide)]
  · by_cases h2 : d = '<'
    · subst h2
      have hesc : escChar '<' = '&' :: 'l' :: 't' :: ';' :: [] := by decide
      rw [hesc]
      simp only [List.cons_append, List.nil_append]
      rw [entityOnlyAmps, if_pos rfl]
      have hpre : ('l' :: 't' :: ';' :: []).isPrefixOf ('l' :: 't' :: ';' :: tail) = true := by
        simp [List.isPrefixOf]
      rw [hpre]
      simp only [Bool.true_or, Bool.or_true, Bool.true_and]
      rw [entityOnlyAmps_cons_of_ne _ (by decide), entityOnlyAmps_cons_of_ne _ (by decide),
        entityOnlyAmps_cons_of_ne _ (by decide)]
    · by_cases h3 : d = '>'
      · subst h3
        have hesc : escChar '>' = '&' :: 'g' :: 't' :: ';' :: [] := by decide
        rw [hesc]
        simp only [List.cons_append, List.nil_append]
        rw [entityOnlyAmps, if_pos rfl]
        have hpre : ('g' :: 't' :: ';' :: []).isPrefixOf ('g' :: 't' :: ';' :: tail) = true := by
          simp [List.isPrefixOf]
        rw [hpre]
        simp only [Bool.true_or, Bool.or_true, Bool.true_and]
        rw [entityOnlyAmps_cons_of_ne _ (by decide), entityOnlyAmps_cons_of_ne _ (by decide),
          entityOnlyAmps_cons_of_ne _ (by decide)]
      · by_cases h4 : d = '"'
        · subst h4
          have hesc : escChar '"' = '&' :: 'q' :: 'u' :: 'o' :: 't' :: ';' :: [] := by decide
          rw [hesc]
          simp only [List.cons_append, List.nil_append]
          rw [entityOnlyAmps, if_pos rfl]
          have hpre : ('q' :: 'u' :: 'o' :: 't' :: ';' :: []).isPrefixOf
              ('q' :: 'u' :: 'o' :: 't' :: ';' :: tail) = true := by
            simp [List.isPrefixOf]
          rw [hpre]
          simp only [Bool.true_or, Bool.or_true, Bool.true_and]
          rw [entityOnlyAmps_cons_of_ne _ (by decide), entityOnlyAmps_cons_of_ne _ (by decide),
            entityOnlyAmps_cons_of_ne _ (by decide), entityOnlyAmps_cons_of_ne _ (by decide),
            entityOnlyAmps_cons_of_ne _ (by decide)]
        · by_cases h5 : d = '\''
          · subst h5
            have hesc : escChar '\'' = '&' :: 'a' :: 'p' :: 'o' :: 's' :: ';' :: [] := by
              decide
            rw [hesc]
            simp only [List.cons_append, List.nil_append]
            rw [entityOnlyAmps, if_pos rfl]
            have hpre : ('a' :: 'p' :: 'o' :: 's' :: ';' :: []).isPrefixOf
                ('a' :: 'p' :: 'o' :: 's' :: ';' :: tail) = true := by
              simp [List.isPrefixOf]
            rw [hpre]
            simp only [Bool.true_or, Bool.or_true, Bool.true_and]
            rw [entityOnlyAmps_cons_of_ne _ (by decide), entityOnlyAmps_cons_of_ne _ (by decide),
              entityOnlyAmps_cons_of_ne _ (by decide), entityOnlyAmps_cons_of_ne _ (by decide),
              entityOnlyAmps_cons_of_ne _ (by decide)]
          · rw [escChar]
            simp only [h1, h2, h3, h4, h5, if_false, List.cons_append, List.nil_append]
            exact entityOnlyAmps_cons_of_ne tail h1

theorem entityOnlyAmps_escapeXml (v : List Char) :
    entityOnlyAmps (escapeXml v) = true := by
  rw [escapeXml_eq_flatMap]
  induction v with
  | nil => rfl
  | cons d rest ih =>
    rw [List.flatMap_cons, entityOnlyAmps_escChar]
    exact ih

theorem lt_not_mem_escapeXml (v : List Char) : '<' ∉ escapeXml v := by
  rw [escapeXml_eq_flatMap]
  intro hmem
  rw [List.mem_flatMap] at hmem
  obtain ⟨d, _, hd⟩ := hmem
  by_cases h1 : d = '&'
  · subst h1; simp [escChar] at hd
  · by_cases h2 : d = '<'
    · subst h2; simp [escChar] at hd
    · by_cases h3 : d = '>'
      · subst h3; simp [escChar] at hd
      · by_cases h4 : d = '"'
        · subst h4; simp [escChar] at hd
        · by_cases h5 : d = '\''
          · subst h5; simp [escChar] at hd
          · simp [escChar, h1, h2, h3, h4, h5] at hd
            exact h2 hd.symm

theorem gt_not_mem_escapeXml (v : List Char) : '>' ∉ escapeXml v := by
  rw [escapeXml_eq_flatMap]
  intro hmem
  rw [List.mem_flatMap] at hmem
  obtain ⟨d, _, hd⟩ := hmem
  by_cases h1 : d = '&'
  · subst h1; simp [escChar] at hd
  · by_cases h2 : d = '<'
    · subst h2; simp [escChar] at hd
    · by_cases h3 : d = '>'
      · subst h3; simp [escChar] at hd
      · by_cases h4 : d = '"'
        · subst h4; simp [escChar] at hd
        · by_cases h5 : d = '\''
          · subst h5; simp [escChar] at hd
          · simp [escChar, h1, h2, h3, h4, h5] at hd
            exact h3 hd.symm

theorem noDollar_escapeXml {v : List Char} (h : noDollar v = true) :
    noDollar (escapeXml v) = true := by
  rw [escapeXml_eq_flatMap]
  rw [noDollar, List.all_eq_true] at *
  intro c hc
  rw [List.mem_flatMap] at hc
  obtain ⟨d, hdv, hd⟩ := hc
  have hdd := h d hdv
  by_cases h1 : d = '&'
  · subst h1; simp [escChar] at hd
    rcases hd with rfl | rfl | rfl | rfl | rfl <;> decide
  · by_cases h2 : d = '<'
    · subst h2; simp [escChar] at hd
      rcases hd with rfl | rfl | rfl | rfl <;> decide
    · by_cases h3 : d = '>'
      · subst h3; simp [escChar] at hd
        rcases hd with rfl | rfl | rfl | rfl <;> decide
      · by_cases h4 : d = '"'
        · subst h4; simp [escChar] at hd
          rcases hd with rfl | rfl | rfl | rfl | rfl | rfl <;> decide
        · by_cases h5 : d = '\''
          · subst h5; simp [escChar] at hd
            rcases hd with rfl | rfl | rfl | rfl | rfl | rfl <;> decide
          · simp [escChar, h1, h2, h3, h4, h5] at hd
            subst hd
            exact hdd



/-! ### tspan stripping and the placeholder engine -/

/-- Length of a match of `/<\\/?tspan[^>]*>/i` starting at the head of `s`,
if any: `<`, optional `/`, `tspan` case-insensitively, any run of
non-`>` characters, then `>`.  (`[^>]*` cannot contain `>`, so the greedy
run followed by the mandatory `>` is exact.) -/
def tspanWordCI : List Char → Option (List Char)
  | t :: s2 :: p2 :: a2 :: n2 :: rest =>
    if t.toLower = 't' ∧ s2.toLower = 's' ∧ p2.toLower = 'p' ∧
        a2.toLower = 'a' ∧ n2.toLower = 'n' then some rest
    else none
  | _ => none

def tagEndLen (s : List Char) : Option Nat :=
  match s.dropWhile (fun c => !(c == '>')) with
  | '>' :: _ => some ((s.takeWhile (fun c => !(c == '>'))).length + 1)
  | _ => none

def matchTspanLen : List Char → Option Nat
  | '<' :: '/' :: r =>
    match tspanWordCI r with
    | some after => (tagEndLen after).map (fun n => 7 + n)
    | none => none
  | '<' :: r =>
    match tspanWordCI r with
    | some after => (tagEndLen after).map (fun n => 6 + n)
    | none => none
  | _ => none

/-- Scan of `svgContent.replace(/<\\/?tspan[^>]*>/gi, '')`, with a skip
counter for the structural recursion. -/
def stripGo : Nat → List Char → List Char
  | _, [] => []
  | 0, c :: rest =>
    match matchTspanLen (c :: rest) with
    | some n => stripGo (n - 1) rest
    | none => c :: stripGo 0 rest
  | k + 1, _ :: rest => stripGo k rest

def stripTspan (s : List Char) : List Char := stripGo 0 s

/-- The nine-field replacement map built by `generateCertificate`:
`CERT_TITLE, COURSE_TITLE, INTRO_TEXT, NAME, COMPLETION_TEXT,
SECONDARY_TEXT, DATE, CERT_ID, FOOTER`, in `Object.entries` order. -/
structure CertFields where
  certTitle : List Char
  courseTitle : List Char
  introText : List Char
  name : List Char
  completionText : List Char
  secondaryText : List Char
  date : List Char
  certId : List Char
  footer : List Char

def fieldPairs (f : CertFields) : List (List Char × List Char) :=
  [("CERT_TITLE".toList, f.certTitle),
   ("COURSE_TITLE".toList, f.courseTitle),
   ("INTRO_TEXT".toList, f.introText),
   ("NAME".toList, f.name),
   ("COMPLETION_TEXT".toList, f.completionText),
   ("SECONDARY_TEXT".toList, f.secondaryText),
   ("DATE".toList, f.date),
   ("CERT_ID".toList, f.certId),
   ("FOOTER".toList, f.footer)]

/-- The pattern `new RegExp('##' + escapeForRegex(key) + '##', 'g')`; the
nine keys contain only `A`–`Z` and `_`, on which `escapeForRegex` is the
identity, so the pattern matches the literal `##KEY##`. -/
def placeholderPat (key : List Char) : List Char :=
  '#' :: '#' :: (key ++ ['#', '#'])

/-- `applyTemplatePlaceholders`: strip tspan wrappers, then for each field in
order replace every `##KEY##` by the XML-escaped value. -/
def applyTemplatePlaceholders (svgContent : List Char) (f : CertFields) : List Char :=
  (fieldPairs f).foldl
    (fun result kv => jsReplaceAll (placeholderPat kv.1) (escapeXml kv.2) result)
    (stripTspan svgContent)

/-- The post-substitution font rewrite's pattern,
`/DejaVu Sans, Arial, sans-serif/g`. -/
def fontPat : List Char := "DejaVu Sans, Arial, sans-serif".toList

/-- The SVG text of `generateCertificate` right before the unresolved
placeholder scan and `prepareSvgForSharp`: placeholder substitution followed
by `.replace(/DejaVu Sans, Arial, sans-serif/g, CERT_FONT_FAMILY)`. -/
def certSvgBeforePrep (template : List Char) (f : CertFields)
    (fontFamily : List Char) : List Char :=
  jsReplaceAll fontPat fontFamily (applyTemplatePlaceholders template f)

theorem foldl_repl_eq_joinWith :
    ∀ (pairs : List (List Char × List Char)),
      (∀ kv ∈ pairs, noDollar kv.2 = true) →
      ∀ (init : List Char),
        pairs.foldl
          (fun result kv => jsReplaceAll (placeholderPat kv.1) (escapeXml kv.2) result)
          init =
        pairs.foldl
          (fun result kv =>
            joinWith (escapeXml kv.2) (splitOnPat (placeholderPat kv.1) result))
          init
  | [], _, init => rfl
  | kv :: pairs, h, init => by
    rw [List.foldl_cons, List.foldl_cons,
      jsReplaceAll_eq_joinWith _ _ _ (noDollar_escapeXml (h kv (List.mem_cons_self ..)))]
    exact foldl_repl_eq_joinWith pairs
      (fun kv2 hkv2 => h kv2 (List.mem_cons_of_mem _ hkv2)) _

/-- `true` iff the literal pattern occurs somewhere in the string. -/
def occursL (pat : List Char) : List Char → Bool
  | [] => pat.isEmpty
  | s@(_ :: rest) => pat.isPrefixOf s || occursL pat rest

/-- C5, amended.  Substitution is nine sequential single passes in the fixed
field order; each pass is exactly "split the current text at that field's
token and interleave the escaped value", so the text a pass inserts is never
rescanned by that same pass (a value containing its own field's token, or an
earlier field's token, leaves it verbatim).  The original claim fails for a
token naming a *later* field: later passes do scan text inserted by earlier
ones (see the counterexample). -/
theorem claim5_amended (f : CertFields) (t : List Char)
    (h : ∀ kv ∈ fieldPairs f, noDollar kv.2 = true) :
    applyTemplatePlaceholders t f =
      (fieldPairs f).foldl
        (fun result kv =>
          joinWith (escapeXml kv.2) (splitOnPat (placeholderPat kv.1) result))
        (stripTspan t) := by
  unfold applyTemplatePlaceholders
  exact foldl_repl_eq_joinWith (fieldPairs f) h (stripTspan t)

/-- C5, counterexample to the claim as stated: with `CERT_TITLE` mapped to
the value `##FOOTER##` and `FOOTER` mapped to `x`, substituting the template
`##CERT_TITLE##` yields `x` — the placeholder-shaped token inside the
substituted `CERT_TITLE` value was itself replaced by the later `FOOTER`
pass instead of remaining verbatim. -/
theorem claim5_counterexample :
    applyTemplatePlaceholders (placeholderPat "CERT_TITLE".toList)
      ⟨"##FOOTER##".toList, [], [], [], [], [], [], [], ['x']⟩ = ['x'] ∧
    occursL (placeholderPat "FOOTER".toList)
      (applyTemplatePlaceholders (placeholderPat "CERT_TITLE".toList)
        ⟨"##FOOTER##".toList, [], [], [], [], [], [], [], ['x']⟩) = false := by
  decide

/-- Witness for `claim5_amended` at a concrete template and field map. -/
theorem claim5_witness :
    applyTemplatePlaceholders ("<svg>##NAME##</svg>".toList)
      ⟨[], [], [], "Ada".toList, [], [], [], [], []⟩ =
      (fieldPairs ⟨[], [], [], "Ada".toList, [], [], [], [], []⟩).foldl
        (fun result kv =>
          joinWith (escapeXml kv.2) (splitOnPat (placeholderPat kv.1) result))
        (stripTspan ("<svg>##NAME##</svg>".toList)) :=
  claim5_amended ⟨[], [], [], "Ada".toList, [], [], [], [], []⟩
    ("<svg>##NAME##</svg>".toList) (by decide)



/-- C6, amended.  For dollar-free field values, every occurrence of
`##FIELDNAME##` is replaced with exactly the XML-escaped field value (the
nine passes each being split-and-interleave with the escaped value), and an
escaped value contains no `<` and no `>` while every `&` in it begins one of
the five entity references.  The original claim fails for values containing
`$`: JavaScript replacement-string semantics rewrite `$$`, `$&`, and the
positional `$` escapes, so the inserted text can differ from the XML-escaped
value (see the counterexample). -/
theorem claim6_amended (f : CertFields) (t v : List Char)
    (h : ∀ kv ∈ fieldPairs f, noDollar kv.2 = true) :
    applyTemplatePlaceholders t f =
      (fieldPairs f).foldl
        (fun result kv =>
          joinWith (escapeXml kv.2) (splitOnPat (placeholderPat kv.1) result))
        (stripTspan t) ∧
    '<' ∉ escapeXml v ∧
    '>' ∉ escapeXml v ∧
    entityOnlyAmps (escapeXml v) = true :=
  ⟨by
    unfold applyTemplatePlaceholders
    exact foldl_repl_eq_joinWith (fieldPairs f) h (stripTspan t),
   lt_not_mem_escapeXml v, gt_not_mem_escapeXml v, entityOnlyAmps_escapeXml v⟩

/-- C6, counterexample to the claim as stated: the value `$$` for `NAME`
XML-escapes to `$$` (none of `& < > " '` occur in it), yet substituting the
template `##NAME##` produces `$`, not `$$` — `String.prototype.replace`
interprets `$$` in the replacement string. -/
theorem claim6_counterexample :
    escapeXml ['$', '$'] = ['$', '$'] ∧
    applyTemplatePlaceholders (placeholderPat "NAME".toList)
      ⟨[], [], [], ['$', '$'], [], [], [], [], []⟩ = ['$'] := by
  decide

/-- Witness for `claim6_amended` at a concrete template, field map and
value: the name `A&B<C>` is embedded escaped. -/
theorem claim6_witness :
    (applyTemplatePlaceholders ("<svg>##NAME##</svg>".toList)
      ⟨[], [], [], "A&B<C>".toList, [], [], [], [], []⟩ =
      (fieldPairs ⟨[], [], [], "A&B<C>".toList, [], [], [], [], []⟩).foldl
        (fun result kv =>
          joinWith (escapeXml kv.2) (splitOnPat (placeholderPat kv.1) result))
        (stripTspan ("<svg>##NAME##</svg>".toList))) ∧
    '<' ∉ escapeXml ("A&B<C>".toList) ∧
    '>' ∉ escapeXml ("A&B<C>".toList) ∧
    entityOnlyAmps (escapeXml ("A&B<C>".toList)) = true :=
  claim6_amended ⟨[], [], [], "A&B<C>".toList, [], [], [], [], []⟩
    ("<svg>##NAME##</svg>".toList) ("A&B<C>".toList) (by decide)

/-- C10: the configured-font rewrite runs on the whole substituted markup,
after placeholder substitution.  The string `DejaVu Sans, Arial, sans-serif`
passes through the sanitizer unchanged (all its characters are allowed) and
through XML escaping unchanged, so a user name equal to it is first embedded
verbatim by the `NAME` pass and then rewritten to the configured font family
by `.replace(/DejaVu Sans, Arial, sans-serif/g, CERT_FONT_FAMILY)` — a field
value is silently rewritten outside the field-substitution contract. -/
theorem claim10_font_rewrite (fontFamily s : List Char)
    (hff : noDollar fontFamily = true) :
    sanitizeUserName Char.isAlpha Char.isDigit id (some fontPat) = fontPat ∧
    escapeXml fontPat = fontPat ∧
    jsReplaceAll fontPat fontFamily s = joinWith fontFamily (splitOnPat fontPat s) ∧
    certSvgBeforePrep ("<text>##NAME##</text>".toList)
      ⟨[], [], [], fontPat, [], [], [], [], []⟩ fontFamily =
      "<text>".toList ++ fontFamily ++ "</text>".toList := by
  refine ⟨by decide, by decide, jsReplaceAll_eq_joinWith _ _ _ hff, ?_⟩
  unfold certSvgBeforePrep
  have h1 : applyTemplatePlaceholders ("<text>##NAME##</text>".toList)
      ⟨[], [], [], fontPat, [], [], [], [], []⟩ =
      "<text>DejaVu Sans, Arial, sans-serif</text>".toList := by decide
  rw [h1, jsReplaceAll_eq_joinWith _ _ _ hff]
  have h2 : splitOnPat fontPat ("<text>DejaVu Sans, Arial, sans-serif</text>".toList) =
      ["<text>".toList, "</text>".toList] := by decide
  rw [h2]
  rfl

/-- Witness for `claim10_font_rewrite` with the configured family `Arial`. -/
theorem claim10_witness :
    certSvgBeforePrep ("<text>##NAME##</text>".toList)
      ⟨[], [], [], fontPat, [], [], [], [], []⟩ ("Arial".toList) =
      "<text>".toList ++ "Arial".toList ++ "</text>".toList :=
  (claim10_font_rewrite ("Arial".toList) [] (by decide)).2.2.2



/-! ### The unresolved-placeholder scan (C7) -/

theorem replGo_id (pat repl : List Char) :
    ∀ (s consumed : List Char), occursL pat s = false →
      replGo pat repl 0 consumed s = s
  | [], _, _ => rfl
  | c :: rest, consumed, h => by
    rw [occursL] at h
    simp only [Bool.or_eq_false_iff] at h
    have hm : ¬(pat ≠ [] ∧ pat.isPrefixOf (c :: rest) = true) := by
      intro hc
      rw [h.1] at hc
      exact Bool.false_ne_true hc.2
    rw [replGo, if_neg hm, replGo_id pat repl rest (consumed ++ [c]) h.2]

theorem jsReplaceAll_id (pat repl s : List Char) (h : occursL pat s = false) :
    jsReplaceAll pat repl s = s :=
  replGo_id pat repl s [] h

theorem foldl_repl_id :
    ∀ (pairs : List (List Char × List Char)) (init : List Char),
      (∀ kv ∈ pairs, occursL (placeholderPat kv.1) init = false) →
      pairs.foldl
        (fun result kv => jsReplaceAll (placeholderPat kv.1) (escapeXml kv.2) result)
        init = init
  | [], _, _ => rfl
  | kv :: pairs, init, h => by
    rw [List.foldl_cons, jsReplaceAll_id _ _ _ (h kv (List.mem_cons_self ..))]
    exact foldl_repl_id pairs init (fun kv2 hkv2 => h kv2 (List.mem_cons_of_mem _ hkv2))

theorem exists_of_occursL (pat : List Char) :
    ∀ (s : List Char), occursL pat s = true → ∃ u v, s = u ++ pat ++ v
  | [] => by
    intro h
    rw [occursL] at h
    rw [List.isEmpty_iff] at h
    exact ⟨[], [], by simp [h]⟩
  | c :: rest => by
    intro h
    rw [occursL] at h
    rcases Bool.or_eq_true_iff.mp h with h1 | h2
    · obtain ⟨t, ht⟩ := isPrefixOf_exists_append pat (c :: rest) h1
      exact ⟨[], t, by simp [ht]⟩
    · obtain ⟨u, v, huv⟩ := exists_of_occursL pat rest h2
      exact ⟨c :: u, v, by simp [huv]⟩

/-- The character class `[A-Z0-9_]` of the unresolved-placeholder scan
`svgToRender.match(/##[A-Z0-9_]+##/g)`. -/
def phNameChar (c : Char) : Bool :=
  ('A' ≤ c && c ≤ 'Z') || ('0' ≤ c && c ≤ '9') || c = '_'

/-- Try to match `##[A-Z0-9_]+##` at the head of the string, returning the
matched text.  (`[A-Z0-9_]+` is greedy with backtracking, but `#` is not in
the class, so only the maximal run can be followed by `##`; the greedy
`takeWhile` is therefore exact.) -/
def tryMatchPH (s : List Char) : Option (List Char) :=
  match s with
  | c :: d :: rest =>
    if c = '#' ∧ d = '#' then
      if rest.takeWhile phNameChar = [] then none
      else
        match rest.drop (rest.takeWhile phNameChar).length with
        | e :: f2 :: _ =>
          if e = '#' ∧ f2 = '#' then
            some ('#' :: '#' :: (rest.takeWhile phNameChar ++ ['#', '#']))
          else none
        | _ => none
    else none
  | _ => none

/-- The scan of `String.prototype.match` with the global flag: all
non-overlapping matches, left to right (`[]` models a `null` result). -/
def scanGo : Nat → List Char → List (List Char)
  | _, [] => []
  | 0, c :: rest =>
    match tryMatchPH (c :: rest) with
    | some m => m :: scanGo (m.length - 1) rest
    | none => scanGo 0 rest
  | k + 1, _ :: rest => scanGo k rest

def scanPH (s : List Char) : List (List Char) := scanGo 0 s

theorem takeWhile_name_append :
    ∀ (K z : List Char), (∀ c ∈ K, phNameChar c = true) →
      (K ++ '#' :: z).takeWhile phNameChar = K ∧
      (K ++ '#' :: z).drop K.length = '#' :: z
  | [], z, _ => by
    refine ⟨?_, by simp⟩
    simp only [List.nil_append]
    rw [List.takeWhile_cons, if_neg (by decide)]
  | c :: K', z, h => by
    have hc : phNameChar c = true := h c (List.mem_cons_self ..)
    have ih := takeWhile_name_append K' z (fun d hd => h d (List.mem_cons_of_mem _ hd))
    refine ⟨?_, ?_⟩
    · simp only [List.cons_append, List.takeWhile_cons, hc, if_true]
      rw [ih.1]
    · simp only [List.cons_append, List.length_cons, List.drop_succ_cons]
      exact ih.2

theorem scanPH_ne_nil_of_token (K : List Char) (hK1 : K ≠ [])
    (hK2 : ∀ c ∈ K, phNameChar c = true) :
    ∀ (u v : List Char), scanPH (u ++ placeholderPat K ++ v) ≠ []
  | [], v => by
    have hsplit : ([] : List Char) ++ placeholderPat K ++ v =
        '#' :: '#' :: (K ++ '#' :: '#' :: v) := by
      simp [placeholderPat]
    rw [scanPH, hsplit, scanGo]
    have htw := takeWhile_name_append K ('#' :: v) hK2
    have h1 : (K ++ '#' :: '#' :: v).takeWhile phNameChar = K := htw.1
    have h2 : (K ++ '#' :: '#' :: v).drop K.length = '#' :: '#' :: v := htw.2
    have htm : tryMatchPH ('#' :: '#' :: (K ++ '#' :: '#' :: v)) =
        some ('#' :: '#' :: (K ++ ['#', '#'])) := by
      simp [tryMatchPH, h1, h2, hK1]
    rw [htm]
    simp
  | c :: u', v => by
    rw [scanPH]
    have hsplit : (c :: u') ++ placeholderPat K ++ v =
        c :: (u' ++ placeholderPat K ++ v) := by
      simp
    rw [hsplit, scanGo]
    rcases htm : tryMatchPH (c :: (u' ++ placeholderPat K ++ v)) with _ | m
    · exact scanPH_ne_nil_of_token K hK1 hK2 u' v
    · simp

/-- C7, amended.  If, after tspan stripping, the template contains an
uppercase token `##K##` whose name is outside the enumerated field set,
and no enumerated field token and no font-family pattern occur in the
stripped template (so no substitution pass overlaps the token), then the
substitution stage returns the text unchanged, the unknown token remains
verbatim, and the unresolved-placeholder scan reports a match (the
non-fatal warning); the whole stage is a total function, so generation
proceeds without throwing.  The original claim fails when an enumerated
token occurrence overlaps the unknown token (the pass can destroy it and
silence the warning, see the counterexample), or when the token's name is
not of the scan's `[A-Z0-9_]+` shape. -/
theorem claim7_amended (f : CertFields) (t K fontFamily : List Char)
    (hK1 : K ≠ []) (hK2 : ∀ c ∈ K, phNameChar c = true)
    (hocc : occursL (placeholderPat K) (stripTspan t) = true)
    (hnone : ∀ kv ∈ fieldPairs f, occursL (placeholderPat kv.1) (stripTspan t) = false)
    (hfont : occursL fontPat (stripTspan t) = false) :
    certSvgBeforePrep t f fontFamily = stripTspan t ∧
    occursL (placeholderPat K) (certSvgBeforePrep t f fontFamily) = true ∧
    scanPH (certSvgBeforePrep t f fontFamily) ≠ [] := by
  have hid : applyTemplatePlaceholders t f = stripTspan t :=
    foldl_repl_id (fieldPairs f) (stripTspan t) hnone
  have hfull : certSvgBeforePrep t f fontFamily = stripTspan t := by
    unfold certSvgBeforePrep
    rw [hid]
    exact jsReplaceAll_id _ _ _ hfont
  refine ⟨hfull, by rw [hfull]; exact hocc, ?_⟩
  rw [hfull]
  obtain ⟨u, v, huv⟩ := exists_of_occursL _ _ hocc
  rw [huv]
  exact scanPH_ne_nil_of_token K hK1 hK2 u v

/-- C7, counterexample to the claim as stated: the template
`##BOGUS##NAME##` contains the unknown uppercase token `##BOGUS##`, but the
`NAME` pass matches `##NAME##` sharing the token's closing hashes;
substituting `NAME := Ada` yields `##BOGUSAda` — the unknown token is
destroyed and the unresolved-placeholder scan finds nothing, so no warning
is surfaced. -/
theorem claim7_counterexample :
    occursL (placeholderPat "BOGUS".toList) ("##BOGUS##NAME##".toList) = true ∧
    certSvgBeforePrep ("##BOGUS##NAME##".toList)
      ⟨[], [], [], "Ada".toList, [], [], [], [], []⟩ ("Arial".toList) =
      "##BOGUSAda".toList ∧
    occursL (placeholderPat "BOGUS".toList)
      (certSvgBeforePrep ("##BOGUS##NAME##".toList)
        ⟨[], [], [], "Ada".toList, [], [], [], [], []⟩ ("Arial".toList)) = false ∧
    scanPH (certSvgBeforePrep ("##BOGUS##NAME##".toList)
      ⟨[], [], [], "Ada".toList, [], [], [], [], []⟩ ("Arial".toList)) = [] := by
  decide

/-- Witness for `claim7_amended`: a non-overlapping unknown token survives
substitution and is reported by the scan. -/
theorem claim7_witness :
    certSvgBeforePrep ("Hello ##BOGUS## world".toList)
      ⟨[], [], [], [], [], [], [], [], []⟩ ("Arial".toList) =
      stripTspan ("Hello ##BOGUS## world".toList) ∧
    occursL (placeholderPat "BOGUS".toList)
      (certSvgBeforePrep ("Hello ##BOGUS## world".toList)
        ⟨[], [], [], [], [], [], [], [], []⟩ ("Arial".toList)) = true ∧
    scanPH (certSvgBeforePrep ("Hello ##BOGUS## world".toList)
      ⟨[], [], [], [], [], [], [], [], []⟩ ("Arial".toList)) ≠ [] :=
  claim7_amended ⟨[], [], [], [], [], [], [], [], []⟩
    ("Hello ##BOGUS## world".toList) ("BOGUS".toList) ("Arial".toList)
    (by decide) (by decide) (by decide) (by decide) (by decide)



/-! ### `prepareSvgForSharp` (C9)

Four non-global (`first occurrence only`) replaces:
`/<\\?xml[\\s\\S]*?\\?>/i` → ``, `/<!DOCTYPE[\\s\\S]*?>/i` → ``,
`/width="100%"/i` → `width="800"`, `/height="100%"/i` → `height="600"`.
The `i` flag makes the literal letters case-insensitive; the lazy
`[\\s\\S]*?` runs to the first occurrence of the closing delimiter. -/

def ciEqChar (a b : Char) : Bool := a.toLower == b.toLower

def ciIsPrefixOf : List Char → List Char → Bool
  | [], _ => true
  | _ :: _, [] => false
  | a :: as2, b :: bs => ciEqChar a b && ciIsPrefixOf as2 bs

def ciOccurs (pat : List Char) : List Char → Bool
  | [] => pat.isEmpty
  | s@(_ :: rest) => ciIsPrefixOf pat s || ciOccurs pat rest

/-- Replace the first case-insensitive occurrence of the literal `pat` by
`repl` (the replacements used contain no `$`, so they are inserted
verbatim); no occurrence leaves the string unchanged. -/
def replaceFirstCI (pat repl : List Char) : List Char → List Char
  | [] => []
  | s@(c :: rest) =>
    if ciIsPrefixOf pat s = true then repl ++ s.drop pat.length
    else c :: replaceFirstCI pat repl rest

/-- Find the first occurrence of the (case-exact) closing delimiter and
return the remainder after it. -/
def findClose (close : List Char) : List Char → Option (List Char)
  | [] => none
  | s@(_ :: rest) =>
    if close.isPrefixOf s = true then some (s.drop close.length)
    else findClose close rest

/-- Delete the first match of `openPat` (case-insensitive) lazily extended
to the first following `closePat`; if `openPat` matches but no `closePat`
follows, the regex fails at that position and the scan moves on. -/
def stripFirstLazy (openPat closePat : List Char) : List Char → List Char
  | [] => []
  | s@(c :: rest) =>
    if ciIsPrefixOf openPat s = true then
      match findClose closePat (s.drop openPat.length) with
      | some rem => rem
      | none => c :: stripFirstLazy openPat closePat rest
    else c :: stripFirstLazy openPat closePat rest

def xmlOpen : List Char := "<?xml".toList
def xmlClose : List Char := "?>".toList
def doctypeOpen : List Char := "<!DOCTYPE".toList
def gtClose : List Char := ['>']
def w100pat : List Char := "width=\"100%\"".toList
def w800repl : List Char := "width=\"800\"".toList
def h100pat : List Char := "height=\"100%\"".toList
def h600repl : List Char := "height=\"600\"".toList

/-- `prepareSvgForSharp` from the README server. -/
def prepareSvgForSharp (svg : List Char) : List Char :=
  replaceFirstCI h100pat h600repl
    (replaceFirstCI w100pat w800repl
      (stripFirstLazy doctypeOpen gtClose
        (stripFirstLazy xmlOpen xmlClose svg)))

theorem ciIsPrefixOf_append_left :
    ∀ (pat w v : List Char), pat.length ≤ w.length →
      ciIsPrefixOf pat (w ++ v) = ciIsPrefixOf pat w
  | [], _, _, _ => rfl
  | a :: as2, [], v, h => by simp at h
  | a :: as2, b :: wt, v, h => by
    show (ciEqChar a b && ciIsPrefixOf as2 (wt ++ v)) =
      (ciEqChar a b && ciIsPrefixOf as2 wt)
    rw [ciIsPrefixOf_append_left as2 wt v (by simpa using h)]

theorem isPrefixOf_append_left :
    ∀ (pat w v : List Char), pat.length ≤ w.length →
      pat.isPrefixOf (w ++ v) = pat.isPrefixOf w
  | [], _, _, _ => by simp [List.isPrefixOf]
  | a :: as2, [], v, h => by simp at h
  | a :: as2, b :: wt, v, h => by
    show ((a == b) && List.isPrefixOf as2 (wt ++ v)) =
      ((a == b) && List.isPrefixOf as2 wt)
    rw [isPrefixOf_append_left as2 wt v (by simpa using h)]

theorem ciIsPrefixOf_self_append :
    ∀ (pat v : List Char), ciIsPrefixOf pat (pat ++ v) = true
  | [], _ => rfl
  | a :: as2, v => by
    show (ciEqChar a a && ciIsPrefixOf as2 (as2 ++ v)) = true
    rw [ciIsPrefixOf_self_append as2 v]
    simp [ciEqChar]

theorem isPrefixOf_self_append :
    ∀ (pat v : List Char), pat.isPrefixOf (pat ++ v) = true
  | [], _ => by simp [List.isPrefixOf]
  | a :: as2, v => by
    show ((a == a) && List.isPrefixOf as2 (as2 ++ v)) = true
    rw [isPrefixOf_self_append as2 v]
    simp

/-- No case-insensitive match of `pat` starts strictly inside `u` when `u`
is followed by text beginning with `pad` (checking against `u ++ pad`
suffices because a prefix check reads at most `pat.length ≤ (u₂ ++
pad).length` characters). -/
def noCiPrefixBefore (pat : List Char) : List Char → List Char → Bool
  | [], _ => true
  | u@(_ :: u'), pad => !(ciIsPrefixOf pat (u ++ pad)) && noCiPrefixBefore pat u' pad

def noPrefixBefore (pat : List Char) : List Char → List Char → Bool
  | [], _ => true
  | u@(_ :: u'), pad => !(pat.isPrefixOf (u ++ pad)) && noPrefixBefore pat u' pad

theorem findClose_append (close v : List Char) (hne : close ≠ []) :
    ∀ (u : List Char), noPrefixBefore close u close = true →
      findClose close ((u ++ close) ++ v) = some v
  | [], _ => by
    obtain ⟨cc, ct, rfl⟩ : ∃ cc ct, close = cc :: ct := by
      cases close with
      | nil => exact absurd rfl hne
      | cons cc ct => exact ⟨cc, ct, rfl⟩
    show findClose (cc :: ct) (cc :: (ct ++ v)) = some v
    rw [findClose]
    have hp : (cc :: ct).isPrefixOf (cc :: (ct ++ v)) = true :=
      isPrefixOf_self_append (cc :: ct) v
    rw [if_pos hp]
    simp [List.length_cons, List.drop_succ_cons, List.drop_left]
  | c :: u', hno => by
    rw [noPrefixBefore] at hno
    simp only [Bool.and_eq_true, Bool.not_eq_eq_eq_not, Bool.not_true] at hno
    have hlen : close.length ≤ ((c :: u') ++ close).length := by
      simp only [List.length_cons, List.length_append]
      omega
    have hbridge : close.isPrefixOf (((c :: u') ++ close) ++ v) = false := by
      rw [isPrefixOf_append_left close ((c :: u') ++ close) v hlen]
      exact hno.1
    show findClose close (c :: ((u' ++ close) ++ v)) = some v
    rw [findClose]
    rw [if_neg (by
      rw [(show (c :: ((u' ++ close) ++ v)) = ((c :: u') ++ close) ++ v by simp), hbridge]
      exact Bool.false_ne_true)]
    exact findClose_append close v hne u' hno.2

theorem replaceFirstCI_append (pat repl v : List Char) (hne : pat ≠ []) :
    ∀ (u : List Char), noCiPrefixBefore pat u pat = true →
      replaceFirstCI pat repl ((u ++ pat) ++ v) = (u ++ repl) ++ v
  | [], _ => by
    obtain ⟨pc, pt, rfl⟩ : ∃ pc pt, pat = pc :: pt := by
      cases pat with
      | nil => exact absurd rfl hne
      | cons pc pt => exact ⟨pc, pt, rfl⟩
    show replaceFirstCI (pc :: pt) repl (pc :: (pt ++ v)) = repl ++ v
    rw [replaceFirstCI]
    have hp : ciIsPrefixOf (pc :: pt) (pc :: (pt ++ v)) = true :=
      ciIsPrefixOf_self_append (pc :: pt) v
    rw [if_pos hp]
    simp [List.length_cons, List.drop_succ_cons, List.drop_left]
  | c :: u', hno => by
    rw [noCiPrefixBefore] at hno
    simp only [Bool.and_eq_true, Bool.not_eq_eq_eq_not, Bool.not_true] at hno
    have hlen : pat.length ≤ ((c :: u') ++ pat).length := by
      simp only [List.length_cons, List.length_append]
      omega
    have hbridge : ciIsPrefixOf pat (((c :: u') ++ pat) ++ v) = false := by
      rw [ciIsPrefixOf_append_left pat ((c :: u') ++ pat) v hlen]
      exact hno.1
    show replaceFirstCI pat repl (c :: ((u' ++ pat) ++ v)) = c :: ((u' ++ repl) ++ v)
    rw [replaceFirstCI]
    rw [if_neg (by
      rw [(show (c :: ((u' ++ pat) ++ v)) = ((c :: u') ++ pat) ++ v by simp), hbridge]
      exact Bool.false_ne_true)]
    rw [replaceFirstCI_append pat repl v hne u' hno.2]

theorem stripFirstLazy_append (openPat closePat mid v : List Char)
    (hopen : openPat ≠ []) (hclose : closePat ≠ [])
    (hnoClose : noPrefixBefore closePat mid closePat = true) :
    ∀ (u : List Char), noCiPrefixBefore openPat u openPat = true →
      stripFirstLazy openPat closePat ((((u ++ openPat) ++ mid) ++ closePat) ++ v) =
        u ++ v
  | [], _ => by
    obtain ⟨oc, ot, rfl⟩ : ∃ oc ot, openPat = oc :: ot := by
      cases openPat with
      | nil => exact absurd rfl hopen
      | cons oc ot => exact ⟨oc, ot, rfl⟩
    simp only [List.nil_append, List.append_assoc]
    show stripFirstLazy (oc :: ot) closePat
      (oc :: (ot ++ (mid ++ (closePat ++ v)))) = v
    rw [stripFirstLazy]
    have hp : ciIsPrefixOf (oc :: ot) (oc :: (ot ++ (mid ++ (closePat ++ v)))) = true :=
      ciIsPrefixOf_self_append (oc :: ot) (mid ++ (closePat ++ v))
    rw [if_pos hp]
    have hdrop : (oc :: (ot ++ (mid ++ (closePat ++ v)))).drop (oc :: ot).length =
        mid ++ (closePat ++ v) := by
      simp [List.length_cons, List.drop_succ_cons, List.drop_left]
    rw [hdrop]
    rw [(show mid ++ (closePat ++ v) = (mid ++ closePat) ++ v by simp)]
    rw [findClose_append closePat v hclose mid hnoClose]
  | c :: u', hno => by
    rw [noCiPrefixBefore] at hno
    simp only [Bool.and_eq_true, Bool.not_eq_eq_eq_not, Bool.not_true] at hno
    have hlen : openPat.length ≤ ((c :: u') ++ openPat).length := by
      simp only [List.length_cons, List.length_append]
      omega
    have hbridge : ciIsPrefixOf openPat
        (((((c :: u') ++ openPat) ++ mid) ++ closePat) ++ v) = false := by
      rw [(show (((((c :: u') ++ openPat) ++ mid) ++ closePat) ++ v) =
        ((c :: u') ++ openPat) ++ ((mid ++ (closePat ++ v))) by simp)]
      rw [ciIsPrefixOf_append_left openPat ((c :: u') ++ openPat) _ hlen]
      exact hno.1
    show stripFirstLazy openPat closePat
      (c :: ((((u' ++ openPat) ++ mid) ++ closePat) ++ v)) = c :: (u' ++ v)
    rw [stripFirstLazy]
    rw [if_neg (by
      rw [(show (c :: ((((u' ++ openPat) ++ mid) ++ closePat) ++ v)) =
        ((((c :: u') ++ openPat) ++ mid) ++ closePat) ++ v by simp), hbridge]
      exact Bool.false_ne_true)]
    rw [stripFirstLazy_append openPat closePat mid v hopen hclose hnoClose u' hno.2]

theorem replaceFirstCI_id (pat repl : List Char) :
    ∀ (s : List Char), ciOccurs pat s = false → replaceFirstCI pat repl s = s
  | [], _ => rfl
  | c :: rest, h => by
    rw [ciOccurs] at h
    simp only [Bool.or_eq_false_iff] at h
    rw [replaceFirstCI, if_neg (by rw [h.1]; exact Bool.false_ne_true),
      replaceFirstCI_id pat repl rest h.2]

theorem stripFirstLazy_id (openPat closePat : List Char) :
    ∀ (s : List Char), ciOccurs openPat s = false →
      stripFirstLazy openPat closePat s = s
  | [], _ => rfl
  | c :: rest, h => by
    rw [ciOccurs] at h
    simp only [Bool.or_eq_false_iff] at h
    rw [stripFirstLazy, if_neg (by rw [h.1]; exact Bool.false_ne_true),
      stripFirstLazy_id openPat closePat rest h.2]

def xmlProlog : List Char := "<?xml version=\"1.0\" encoding=\"UTF-8\"?>".toList
def svgRootPct : List Char := "<svg width=\"100%\" height=\"100%\">".toList
def svgRoot800 : List Char := "<svg width=\"800\" height=\"600\">".toList

/-- C9, amended.  Each of the four normalization steps acts on the *first*
occurrence of its pattern only, case-insensitively, and the width/height
rules match only the exact attribute texts `width="100%"`/`height="100%"`
wherever they occur, not arbitrary percentages on the root element: a
string without the patterns is unchanged, and for every document consisting
of an XML prolog followed by a root tag carrying `width="100%"
height="100%"`, the prolog is stripped and the root gets `width="800"
height="600"`.  The original claim's "percentage-based width/height"
generality fails for any percentage other than the literal `100%` (see the
counterexample). -/
theorem claim9_amended (s rest : List Char)
    (h1 : ciOccurs xmlOpen s = false) (h2 : ciOccurs doctypeOpen s = false)
    (h3 : ciOccurs w100pat s = false) (h4 : ciOccurs h100pat s = false)
    (hd : ciOccurs doctypeOpen (svgRootPct ++ rest) = false) :
    prepareSvgForSharp s = s ∧
    prepareSvgForSharp (xmlProlog ++ svgRootPct ++ rest) = svgRoot800 ++ rest := by
  constructor
  · unfold prepareSvgForSharp
    rw [stripFirstLazy_id _ _ s h1, stripFirstLazy_id _ _ s h2,
      replaceFirstCI_id _ _ s h3, replaceFirstCI_id _ _ s h4]
  · have hp1 : stripFirstLazy xmlOpen xmlClose (xmlProlog ++ svgRootPct ++ rest) =
        svgRootPct ++ rest := by
      have happ := stripFirstLazy_append xmlOpen xmlClose
        (" version=\"1.0\" encoding=\"UTF-8\"".toList) (svgRootPct ++ rest)
        (by decide) (by decide) (by decide) [] (by decide)
      exact happ
    have hp2 : stripFirstLazy doctypeOpen gtClose (svgRootPct ++ rest) =
        svgRootPct ++ rest := stripFirstLazy_id _ _ _ hd
    have hp3 : replaceFirstCI w100pat w800repl (svgRootPct ++ rest) =
        ("<svg ".toList ++ w800repl) ++ (" height=\"100%\">".toList ++ rest) := by
      have happ := replaceFirstCI_append w100pat w800repl
        (" height=\"100%\">".toList ++ rest) (by decide) ("<svg ".toList) (by decide)
      exact happ
    have hp4 : replaceFirstCI h100pat h600repl
        (("<svg ".toList ++ w800repl) ++ (" height=\"100%\">".toList ++ rest)) =
        svgRoot800 ++ rest := by
      have happ := replaceFirstCI_append h100pat h600repl ('>' :: rest)
        (by decide) ("<svg width=\"800\" ".toList) (by decide)
      exact happ
    unfold prepareSvgForSharp
    rw [hp1, hp2, hp3, hp4]

/-- C9, counterexample to the claim as stated: a root element with
percentage width/height other than the literal `100%` is left untouched —
the normalized output does not carry `width="800"`/`height="600"`. -/
theorem claim9_counterexample :
    prepareSvgForSharp ("<svg width=\"50%\" height=\"50%\"></svg>".toList) =
      "<svg width=\"50%\" height=\"50%\"></svg>".toList ∧
    ciOccurs w800repl
      (prepareSvgForSharp ("<svg width=\"50%\" height=\"50%\"></svg>".toList)) = false ∧
    ciOccurs h600repl
      (prepareSvgForSharp ("<svg width=\"50%\" height=\"50%\"></svg>".toList)) = false := by
  decide

/-- Witness for `claim9_amended` at a concrete plain body and document. -/
theorem claim9_witness :
    prepareSvgForSharp ("<svg></svg>".toList) = "<svg></svg>".toList ∧
    prepareSvgForSharp (xmlProlog ++ svgRootPct ++ "</svg>".toList) =
      svgRoot800 ++ "</svg>".toList :=
  claim9_amended ("<svg></svg>".toList) ("</svg>".toList)
    (by decide) (by decide) (by decide) (by decide) (by decide)


end Solquiz
